import Mathlib

/-!
Verification of the SMILES-to-molecule pipeline of the `gimlet` repository
(`gin/i_o/from_smiles.py` and `gin/deterministic/hydrogen.py`).

The TensorFlow source is shallowly embedded: the adjacency map (a float32
square matrix, indexed by int64 atom indices) becomes a total function
`ℤ → ℤ → ℚ`, `tf.scatter_nd_update` becomes a left fold of single-entry
updates, and each pipeline stage becomes a function on a `ParseState`.
Rational arithmetic is performed through `Rat.divInt`-based helpers
(`qadd`, `qdiv`, `qsum`) that are proved equal to the field operations;
this keeps every definition kernel-computable on concrete inputs.
-/

namespace Gimlet

/-! ### Executable rational arithmetic -/

/-- Addition on `ℚ` through `Rat.divInt` (kernel-computable). -/
def qadd (a b : ℚ) : ℚ := Rat.divInt (a.num * b.den + b.num * a.den) (a.den * b.den)

/-- Division on `ℚ` through `Rat.divInt` (kernel-computable). -/
def qdiv (a b : ℚ) : ℚ := Rat.divInt (a.num * b.den) (a.den * b.num)

/-- Sum of a list of rationals through `qadd`. -/
def qsum (l : List ℚ) : ℚ := l.foldr qadd 0

/-! ### Scatter updates

`tf.scatter_nd_update` applied to a list of (index, value) pairs, modelled
as a sequential left fold of single-entry overwrites. -/

/-- Overwrite a single matrix entry. -/
def updEntry (b : ℤ → ℤ → ℚ) (p : ℤ × ℤ) (v : ℚ) : ℤ → ℤ → ℚ :=
  fun x y => if x = p.1 ∧ y = p.2 then v else b x y

/-- Apply a list of (index, value) updates, later updates overriding earlier ones. -/
def scatterNd (b : ℤ → ℤ → ℚ) (ups : List ((ℤ × ℤ) × ℚ)) : ℤ → ℤ → ℚ :=
  ups.foldl (fun acc u => updEntry acc u.1 u.2) b

/-! ### Normalizer (`from_smiles.py` lines 181-257)

`tf.strings.regex_replace` with literal patterns, applied to the stripped
SMILES string: `Br`→`R`, `Cl`→`L`, the chiral bracket forms →`C`,
`[nH]`→`n`, `/` and `\` deleted. -/

/-- Does `pat` occur as a prefix of `s`? -/
def matchesAt : List Char → List Char → Bool
  | [], _ => true
  | _ :: _, [] => false
  | p :: ps, c :: cs => p == c && matchesAt ps cs

/-- Fuel-driven worker for `replaceSub`; every step consumes at least one
character of the remaining string, so fuel equal to the string length
suffices. -/
def replaceSubGo (pat rep : List Char) : ℕ → List Char → List Char
  | 0, s => s
  | _, [] => []
  | fuel + 1, c :: rest =>
    if pat ≠ [] ∧ matchesAt pat (c :: rest) then
      rep ++ replaceSubGo pat rep fuel ((c :: rest).drop pat.length)
    else
      c :: replaceSubGo pat rep fuel rest

/-- Replace every (leftmost, non-overlapping) occurrence of the literal
pattern `pat` by `rep`, as `tf.strings.regex_replace` does for a literal
regex. -/
def replaceSub (pat rep : List Char) (s : List Char) : List Char :=
  replaceSubGo pat rep s.length s

/-- The characters deleted by the atom-counting regex (`N_ATOM_COUNTER_STR`):
topology marks plus `l`, `r`, `[`, `]`, `@`, `H`, `/`, `\`. -/
def isCounterChar (c : Char) : Bool :=
  c ∈ ['=', '#', '(', ')', '1', '2', '3', '4', '5', '6', '7', '8', '9',
       'l', 'r', '[', ']', '@', 'H', '/', '\\']

/-- The topology marks (`ALL_TOPOLOGY_REGEX_STR`). -/
def isTopologyChar (c : Char) : Bool :=
  c ∈ ['=', '#', '(', ')', '1', '2', '3', '4', '5', '6', '7', '8', '9']

/-- The single-character organic atom symbols (`ALL_ORGANIC_ATOMS_STR`),
after `Br`→`R` and `Cl`→`L`. -/
def isOrganicAtomChar (c : Char) : Bool :=
  c ∈ ['C', 'c', 'N', 'n', 'O', 'o', 'S', 's', 'P', 'p', 'F', 'R', 'L', 'I']

/-- The element-code translation (lines 264-321): carbon 0, nitrogen 1,
oxygen 2, sulfur 3, phosphorus 4, fluorine 5, chlorine 6, bromine 7,
iodine 8.  Any other character would make `tf.strings.to_number` fail in
the source; the default branch is unreachable for the supported alphabet. -/
def charAtomCode (c : Char) : ℕ :=
  if c = 'C' ∨ c = 'c' then 0
  else if c = 'N' ∨ c = 'n' then 1
  else if c = 'O' ∨ c = 'o' then 2
  else if c = 'S' ∨ c = 's' then 3
  else if c = 'P' ∨ c = 'p' then 4
  else if c = 'F' then 5
  else if c = 'L' then 6
  else if c = 'R' then 7
  else if c = 'I' then 8
  else 9

/-- The replacement chain of lines 226-244 applied to the stripped string. -/
def normalizeChars (s : List Char) : List Char :=
  let s := replaceSub ['B', 'r'] ['R'] s
  let s := replaceSub ['C', 'l'] ['L'] s
  let s := replaceSub ['[', 'C', '@', 'H', ']'] ['C'] s
  let s := replaceSub ['[', 'C', '@', '@', 'H', ']'] ['C'] s
  let s := replaceSub ['[', 'C', '@', ']'] ['C'] s
  let s := replaceSub ['[', 'C', '@', '@', ']'] ['C'] s
  let s := replaceSub ['[', 'n', 'H', ']'] ['n'] s
  let s := replaceSub ['/'] [] s
  replaceSub ['\\'] [] s

/-! ### Parse state and chain builder (lines 174-368) -/

/-- The state threaded through the resolver stages: atom count, atom
codes, aromatic atom indices, the topology characters with their
shifted anchor indices, and the (upper-triangular) bond-order matrix. -/
structure ParseState where
  n : ℤ
  atoms : List ℕ
  aromIdxs : List ℤ
  topoChrs : List Char
  anchors : List ℤ
  bond : ℤ → ℤ → ℚ

/-- Normalizer plus chain builder: strips the string, counts atoms,
normalizes multi-character symbols, derives the atoms-only and
topology-only streams, computes the shifted anchor of every topology
character (`topology_idxs - range(len) - 1`, line 360), and initializes
the default consecutive-chain adjacency matrix
(`tf.eye(n_atoms + 1)[1:, :-1]`, line 214: entry `(i, j) = 1` iff
`j = i + 1` inside the `n × n` block). -/
def parseInit (s : String) : ParseState :=
  let stripped := ((s.toList.dropWhile Char.isWhitespace).reverse.dropWhile
    Char.isWhitespace).reverse
  let n : ℤ := (stripped.filter (fun c => !isCounterChar c)).length
  let sN := normalizeChars stripped
  let atomsOnly := sN.filter (fun c => !isTopologyChar c)
  let aromStr := atomsOnly.map
    (fun c => if c = 'c' ∨ c = 'n' ∨ c = 'o' ∨ c = 'p' then 'A' else c)
  let atoms := atomsOnly.map charAtomCode
  let topoOnly := sN.map (fun c => if isOrganicAtomChar c then '0' else c)
  let topoPos := (List.range topoOnly.length).filter
    (fun p => topoOnly.getD p '0' != '0')
  let topoChrs := topoPos.map (fun p => topoOnly.getD p '0')
  let anchors := topoPos.enum.map (fun kp => ((kp.2 : ℤ) - (kp.1 : ℤ)) - 1)
  let aromIdxs := (aromStr.enum.filter (fun pc => pc.2 == 'A')).map
    (fun pc => ((pc.1 : ℕ) : ℤ))
  { n := n, atoms := atoms, aromIdxs := aromIdxs, topoChrs := topoChrs,
    anchors := anchors,
    bond := fun i j => if 0 ≤ i ∧ j = i + 1 ∧ j < n then 1 else 0 }

/-! ### Bond-order resolver (lines 379-431) -/

/-- The anchors of all topology characters equal to `c`, in stream order. -/
def anchorsWhere (chrs : List Char) (anchors : List ℤ) (c : Char) : List ℤ :=
  ((chrs.zip anchors).filter (fun pa => pa.1 == c)).map (fun pa => pa.2)

/-- Updates setting the bond `(a, a+1)` to 2 for every `=` anchor `a`. -/
def doubleBondUps (chrs : List Char) (anchors : List ℤ) : List ((ℤ × ℤ) × ℚ) :=
  (anchorsWhere chrs anchors '=').map (fun a => ((a, a + 1), (2 : ℚ)))

/-- Updates setting the bond `(a, a+1)` to 3 for every `#` anchor `a`. -/
def tripleBondUps (chrs : List Char) (anchors : List ℤ) : List ((ℤ × ℤ) × ℚ) :=
  (anchorsWhere chrs anchors '#').map (fun a => ((a, a + 1), (3 : ℚ)))

/-- The bond-order stage: scatter the double-bond updates, then the
triple-bond updates (lines 399-431). -/
def bondOrderApply (chrs : List Char) (anchors : List ℤ) (b : ℤ → ℤ → ℚ) :
    ℤ → ℤ → ℚ :=
  scatterNd (scatterNd b (doubleBondUps chrs anchors)) (tripleBondUps chrs anchors)

def stageBond (st : ParseState) : ParseState :=
  { st with bond := bondOrderApply st.topoChrs st.anchors st.bond }

/-! ### Branch resolver (lines 433-644) -/

/-- The bracket scan (lines 452-542): walk the topology characters with a
stack of pending `(` positions; on `)` pop the most recent one and record
the anchor pair (left anchor, right anchor) in closing order.  The source
indexes `bracket_queue[-1]` without a guard, so an unmatched `)` is
undefined behavior there; here it leaves the state unchanged. -/
def bracketScan (chrs : List Char) (anchors : List ℤ) : List (ℤ × ℤ) :=
  ((chrs.enum).foldl
    (fun st kc =>
      let st1 := if kc.2 == '(' then (kc.1 :: st.1, st.2) else st
      if kc.2 == ')' then
        match st1.1 with
        | [] => st1
        | top :: rest =>
          (rest, st1.2 ++ [(anchors.getD top 0, anchors.getD kc.1 0)])
      else st1)
    (([] : List ℕ), ([] : List (ℤ × ℤ)))).2

/-- The overlap detection of lines 562-575: all index pairs `(i, j)` with
`lefts[j] = rights[i]`, in row-major order. -/
def overlapList (L R : List ℤ) : List (ℕ × ℕ) :=
  (List.range R.length).flatMap
    (fun i => ((List.range R.length).filter
      (fun j => L.getD j 0 == R.getD i 0)).map (fun j => (i, j)))

/-- One overlap-correction step (lines 577-594): rewrite `lefts[j]` to the
current `lefts[i]`. -/
def overlapStep (L : List ℤ) (ij : ℕ × ℕ) : List ℤ :=
  L.set ij.2 (L.getD ij.1 0)

/-- The overlap post-pass (lines 596-603): fold the correction steps over
the overlap list. -/
def fixOverlaps (L R : List ℤ) : List ℤ :=
  (overlapList L R).foldl overlapStep L

/-- The updates severing the chain bond `(r, r+1)` of every recorded right
anchor (line 636). -/
def branchZeroUps (R : List ℤ) : List ((ℤ × ℤ) × ℚ) :=
  R.map (fun r => ((r, r + 1), (0 : ℚ)))

/-- The updates creating the bond `(l, r+1)` carrying the order gathered
from `(r, r+1)` before any update (lines 618-644). -/
def branchNewUps (L R : List ℤ) (b : ℤ → ℤ → ℚ) : List ((ℤ × ℤ) × ℚ) :=
  (L.zip R).map (fun lr => ((lr.1, lr.2 + 1), b lr.2 (lr.2 + 1)))

/-- The branch rewiring: gather the current orders, zero the severed
bonds, then write the new bonds. -/
def branchApply (L R : List ℤ) (b : ℤ → ℤ → ℚ) : ℤ → ℤ → ℚ :=
  scatterNd (scatterNd b (branchZeroUps R)) (branchNewUps L R b)

/-- The full branch stage (lines 433-644): scan, discard pairs whose right
anchor is the final atom (the source masks the rights and truncates the
lefts to the masked length, lines 550-557), run the overlap post-pass,
and rewire. -/
def stageBranch (st : ParseState) : ParseState :=
  let pairs := bracketScan st.topoChrs st.anchors
  let rights0 := pairs.map (fun p => p.2)
  let lefts0 := pairs.map (fun p => p.1)
  let rights := rights0.filter (fun r => r != st.n - 1)
  let lefts := lefts0.take rights.length
  let lefts2 := fixOverlaps lefts rights
  { st with bond := branchApply lefts2 rights st.bond }

/-! ### Ring-closure resolver (lines 647-800) -/

/-- `connection_chrs[i]` (lines 662-669). -/
def connectionChr (i : ℕ) : Char :=
  (['1', '2', '3', '4', '5', '6']).getD i '0'

/-- Insertion into a sorted list (ascending). -/
def insertSorted (x : ℤ) : List ℤ → List ℤ
  | [] => [x]
  | y :: ys => if x ≤ y then x :: y :: ys else y :: insertSorted x ys

/-- `tf.sort` ascending, as insertion sort. -/
def sortAnchors : List ℤ → List ℤ
  | [] => []
  | x :: xs => insertSorted x (sortAnchors xs)

/-- The ring pairs for digit index `i` (lines 686-733): sort the anchors
bearing that digit and take every strictly-lower-triangle combination
`(c[j], c[i])` with `j < i`, in the row-major order of `tf.where`. -/
def ringPairsFor (chrs : List Char) (anchors : List ℤ) (i : ℕ) : List (ℤ × ℤ) :=
  let c := sortAnchors (anchorsWhere chrs anchors (connectionChr i))
  (List.range c.length).flatMap
    (fun ii => (List.range ii).map (fun jj => (c.getD jj 0, c.getD ii 0)))

/-- The ring while loop (lines 761-791): starting from digit index 0, run
while `idx < max_iter` (`max_iter = 5`) and the current digit occurs among
the topology characters; each iteration contributes the digit's pair list
and increments the index.  The loop exits at the first digit that does
not occur. -/
def ringGo (chrs : List Char) (anchors : List ℤ) : ℕ → ℕ → List (ℤ × ℤ)
  | 0, _ => []
  | fuel + 1, i =>
    if i < 5 ∧ connectionChr i ∈ chrs then
      ringPairsFor chrs anchors i ++ ringGo chrs anchors fuel (i + 1)
    else []

/-- All accumulated ring bond indices (the loop runs at most 5 iterations). -/
def ringUpdates (chrs : List Char) (anchors : List ℤ) : List (ℤ × ℤ) :=
  ringGo chrs anchors 5 0

/-- The ring scatter (lines 798-800): every accumulated index receives
bond order 1. -/
def ringApply (chrs : List Char) (anchors : List ℤ) (b : ℤ → ℤ → ℚ) :
    ℤ → ℤ → ℚ :=
  scatterNd b ((ringUpdates chrs anchors).map (fun ab => (ab, (1 : ℚ))))

def stageRing (st : ParseState) : ParseState :=
  { st with bond := ringApply st.topoChrs st.anchors st.bond }

/-! ### Aromaticity boost (lines 802-884) -/

/-- The aromatic updates: over all ordered pairs of aromatic atom indices
(row-major), keep those whose current (upper-triangular) bond entry is
nonzero and add 0.5 when the order is at least 1 (lines 851-884). -/
def aromaticUps (arom : List ℤ) (b : ℤ → ℤ → ℚ) : List ((ℤ × ℤ) × ℚ) :=
  ((arom.flatMap (fun a => arom.map (fun c => (a, c)))).filter
      (fun ac => b ac.1 ac.2 != 0)).map
    (fun ac =>
      (ac, if 1 ≤ b ac.1 ac.2 then qadd (b ac.1 ac.2) (mkRat 1 2) else b ac.1 ac.2))

def stageAromatic (st : ParseState) : ParseState :=
  { st with bond := scatterNd st.bond (aromaticUps st.aromIdxs st.bond) }

/-! ### Conjugation resolver (lines 886-1278) -/

/-- The symmetrized adjacency map `adjacency_map + transpose` (line 887). -/
def fullOf (b : ℤ → ℤ → ℚ) : ℤ → ℤ → ℚ := fun x y => qadd (b x y) (b y x)

/-- The upper-band index pairs `p ≤ q` of an `m × m` matrix, row-major
(`tf.linalg.band_part(·, 0, -1)` keeps exactly these entries). -/
def bandPairs (m : ℕ) : List (ℕ × ℕ) :=
  (List.range m).flatMap
    (fun p => ((List.range m).filter (fun q => p ≤ q)).map (fun q => (p, q)))

/-- `system_total_bond_order` (line 1193): the sum of the upper band of the
symmetrized adjacency gathered at the system's atoms. -/
def systemTotal (f : ℤ → ℤ → ℚ) (sys : List ℤ) : ℚ :=
  qsum ((bandPairs sys.length).map
    (fun pq => f (sys.getD pq.1 0) (sys.getD pq.2 0)))

/-- `system_total_bond_count` (line 1194): the number of positive entries
in that band. -/
def systemCount (f : ℤ → ℤ → ℚ) (sys : List ℤ) : ℕ :=
  ((bandPairs sys.length).filter
    (fun pq => decide (0 < f (sys.getD pq.1 0) (sys.getD pq.2 0)))).length

/-- `system_mean_bond_order` (line 1203). -/
def systemMean (f : ℤ → ℤ → ℚ) (sys : List ℤ) : ℚ :=
  qdiv (systemTotal f sys) ((systemCount f sys : ℕ) : ℚ)

/-- `system_idxs_2d` (lines 1219-1233): all ordered pairs of system atoms
whose (upper-triangular) adjacency entry is positive, row-major. -/
def systemPositions (b : ℤ → ℤ → ℚ) (sys : List ℤ) : List (ℤ × ℤ) :=
  (sys.flatMap (fun a => sys.map (fun c => (a, c)))).filter
    (fun ac => decide (0 < b ac.1 ac.2))

/-- The per-system updates: every such position receives the system's mean
bond order (lines 1235-1250). -/
def conjUpsFor (b : ℤ → ℤ → ℚ) (sys : List ℤ) : List ((ℤ × ℤ) × ℚ) :=
  (systemPositions b sys).map (fun ac => (ac, systemMean (fullOf b) sys))

/-- The averaging overwrite for a single conjugate system. -/
def conjApplySystem (b : ℤ → ℤ → ℚ) (sys : List ℤ) : ℤ → ℤ → ℚ :=
  scatterNd b (conjUpsFor b sys)

/-- The inner worklist loop of the component search (lines 961-1050):
dequeue from the end, collect the unvisited element itself and its
unvisited neighbors into the system, enqueue the neighbors, and mark
self and neighbors visited (the source's `tf.where` over the visited
vector, realized as setting those positions).  Runs while the queue is
nonempty; the fuel passed by the caller exceeds the maximal number of
iterations. -/
def conjInner (subAdj : ℕ → ℕ → ℚ) (m : ℕ) :
    ℕ → List ℕ → List Bool → List ℕ → List Bool × List ℕ
  | 0, _, visited, system => (visited, system)
  | fuel + 1, queue, visited, system =>
    match queue.getLast? with
    | none => (visited, system)
    | some idx =>
      let rest := queue.dropLast
      let neigh := (List.range m).filter
        (fun q => decide (0 < subAdj idx q) && (visited.getD q true == false))
      let system1 := if visited.getD idx true == false then system ++ [idx] else system
      let system2 := system1 ++ neigh
      let queue2 := rest ++ neigh
      let visited2 := (idx :: neigh).foldl (fun v q => v.set q true) visited
      conjInner subAdj m fuel queue2 visited2 system2

/-- The outer loop (lines 1052-1137): while some candidate is unvisited,
start a worklist from the first unvisited candidate, and keep the
resulting system only when it has at least three atoms (systems shorter
than three are padded away, lines 1088-1098 and 1141-1147). -/
def conjOuter (subAdj : ℕ → ℕ → ℚ) (m : ℕ) :
    ℕ → List Bool → List (List ℕ) → List (List ℕ)
  | 0, _, acc => acc
  | fuel + 1, visited, acc =>
    if visited.all (fun v => v) then acc
    else
      let start := ((List.range m).filter
        (fun q => visited.getD q true == false)).headD 0
      let res := conjInner subAdj m (m + 1) [start] visited []
      let acc2 := if 3 ≤ res.2.length then acc ++ [res.2] else acc
      conjOuter subAdj m fuel res.1 acc2

/-- The conjugation candidates (lines 893-944): the atoms having some
symmetrized adjacency entry equal to 2, followed by the aromatic atoms,
restricted to carbon, nitrogen, or oxygen. -/
def sp2Of (st : ParseState) : List ℤ :=
  let full := fullOf st.bond
  let nn := st.n.toNat
  let sp2a := ((List.range nn).filter
    (fun i => (List.range nn).any
      (fun j => decide (full (i : ℤ) (j : ℤ) = 2)))).map (fun i => (i : ℤ))
  (sp2a ++ st.aromIdxs).filter (fun a =>
    st.atoms.getD a.toNat 9 == 0 || st.atoms.getD a.toNat 9 == 1 ||
      st.atoms.getD a.toNat 9 == 2)

/-- The component search over the candidate subgraph (lines 946-1147),
returning the surviving systems as lists of local candidate indices. -/
def conjSystemsFrom (b : ℤ → ℤ → ℚ) (sp2 : List ℤ) : List (List ℕ) :=
  conjOuter (fun p q => fullOf b (sp2.getD p 0) (sp2.getD q 0)) sp2.length
    (sp2.length + 1) (List.replicate sp2.length false) []

/-- The accumulated averaging updates of all surviving systems
(lines 1150-1273). -/
def conjUpsFrom (b : ℤ → ℤ → ℚ) (sp2 : List ℤ) (systems : List (List ℕ)) :
    List ((ℤ × ℤ) × ℚ) :=
  systems.flatMap
    (fun sysLoc => conjUpsFor b (sysLoc.map (fun p => sp2.getD p 0)))

/-- The conjugation stage (lines 886-1278): find the candidates and their
components, then apply every system's mean-bond-order updates in a single
scatter. -/
def stageConj (st : ParseState) : ParseState :=
  { st with
    bond := scatterNd st.bond
      (conjUpsFrom st.bond (sp2Of st) (conjSystemsFrom st.bond (sp2Of st))) }

/-! ### The composed pipeline -/

/-- Normalizer, chain builder, bond-order resolver, and branch resolver. -/
def parsePreRing (s : String) : ParseState :=
  stageBranch (stageBond (parseInit s))

/-- The pipeline up to and including the ring-closure resolver. -/
def parsePostRing (s : String) : ParseState :=
  stageRing (parsePreRing s)

/-- The full `smiles_to_organic_topological_molecule` pipeline. -/
def parseSmiles (s : String) : ParseState :=
  stageConj (stageAromatic (parsePostRing s))

/-! ### Hydrogen completer (`hydrogen.py`)

The atom-typing oracle `typing.TypingGAFF` is an external collaborator
(spec §1, §3): `add_hydrogen` only reads its per-atom boolean flags, so
the classification is a parameter of the embedding. -/

/-- The per-atom classification flags read from `typing.TypingGAFF(mol)`. -/
structure GAFFTyping where
  is_carbon : ℕ → Bool
  is_nitrogen : ℕ → Bool
  is_oxygen : ℕ → Bool
  is_sulfur : ℕ → Bool
  is_phosphorus : ℕ → Bool
  is_sp1 : ℕ → Bool
  is_sp2 : ℕ → Bool
  is_sp3 : ℕ → Bool
  is_connected_to_1_heavy : ℕ → Bool
  is_connected_to_2_heavy : ℕ → Bool
  is_connected_to_3_heavy : ℕ → Bool

/-- `has_one` (`hydrogen.py` lines 60-113): the atoms receiving one
hydrogen. -/
def hasOne (T : GAFFTyping) (i : ℕ) : Bool :=
  (T.is_carbon i && (T.is_sp3 i && T.is_connected_to_3_heavy i)) ||
  (T.is_carbon i && (T.is_sp2 i && T.is_connected_to_2_heavy i)) ||
  (T.is_carbon i && (T.is_sp1 i && T.is_connected_to_1_heavy i)) ||
  ((T.is_nitrogen i || T.is_phosphorus i) &&
    (T.is_sp3 i && T.is_connected_to_2_heavy i)) ||
  ((T.is_nitrogen i || T.is_phosphorus i) &&
    (T.is_sp2 i && T.is_connected_to_1_heavy i)) ||
  ((T.is_oxygen i || T.is_sulfur i) && T.is_sp3 i)

/-- `has_two` (lines 122-152): the atoms receiving two hydrogens. -/
def hasTwo (T : GAFFTyping) (i : ℕ) : Bool :=
  (T.is_carbon i && (T.is_sp3 i && T.is_connected_to_2_heavy i)) ||
  (T.is_carbon i && (T.is_sp2 i && T.is_connected_to_1_heavy i)) ||
  ((T.is_nitrogen i || T.is_phosphorus i) &&
    (T.is_sp3 i && T.is_connected_to_1_heavy i))

/-- `has_three` (lines 161-165): the atoms receiving three hydrogens. -/
def hasThree (T : GAFFTyping) (i : ℕ) : Bool :=
  T.is_carbon i && (T.is_sp3 i && T.is_connected_to_1_heavy i)

/-- `one_idxs` (lines 115-119). -/
def oneIdxs (T : GAFFTyping) (n : ℕ) : List ℕ :=
  (List.range n).filter (hasOne T)

/-- `two_idxs` (lines 154-158). -/
def twoIdxs (T : GAFFTyping) (n : ℕ) : List ℕ :=
  (List.range n).filter (hasTwo T)

/-- `three_idxs` (lines 167-171). -/
def threeIdxs (T : GAFFTyping) (n : ℕ) : List ℕ :=
  (List.range n).filter (hasThree T)

/-- The parent heavy atom of each appended hydrogen column, in the order
the columns are appended to `hydrogen_block`: one column per `one_idxs`
atom, then two per `two_idxs` atom, then three per `three_idxs` atom
(lines 177-346). -/
def hParents (T : GAFFTyping) (n : ℕ) : List ℕ :=
  oneIdxs T n ++ (twoIdxs T n).flatMap (fun i => [i, i]) ++
    (threeIdxs T n).flatMap (fun i => [i, i, i])

/-- `add_hydrogen` (lines 41-375): append one atom code 9 per hydrogen,
extend the adjacency map with the hydrogen block (column `n + h` is the
indicator of hydrogen `h`'s parent row, carrying bond order 1) and with
all-zero hydrogen rows. -/
def addHydrogen (atoms : List ℕ) (bond : ℕ → ℕ → ℚ) (T : GAFFTyping) :
    List ℕ × (ℕ → ℕ → ℚ) :=
  (atoms ++ List.replicate (hParents T atoms.length).length 9,
   fun i j =>
     if i < atoms.length then
       if j < atoms.length then bond i j
       else if j < atoms.length + (hParents T atoms.length).length then
         (if (hParents T atoms.length).getD (j - atoms.length) atoms.length = i
          then 1 else 0)
       else 0
     else 0)

/-! ### Concrete states used to evaluate the pipeline on benzene

Evaluating the composed pipeline in one step re-evaluates the
intermediate bond closures many times, so the state after each stage is
recorded as a definition with literal fields and proved equal to the
pipeline's state. -/

/-- The default consecutive-chain matrix for six atoms. -/
def benzChain : ℤ → ℤ → ℚ := fun i j => if 0 ≤ i ∧ j = i + 1 ∧ j < 6 then 1 else 0

/-- The parse state of `"c1ccccc1"` after the ring-closure stage. -/
def benzStateRing : ParseState :=
  { n := 6, atoms := [0, 0, 0, 0, 0, 0], aromIdxs := [0, 1, 2, 3, 4, 5],
    topoChrs := ['1', '1'], anchors := [0, 5],
    bond := updEntry benzChain (0, 5) 1 }

/-- The aromatic-boost updates of benzene. -/
def benzUpsArom : List ((ℤ × ℤ) × ℚ) :=
  [((0, 1), mkRat 3 2), ((0, 5), mkRat 3 2), ((1, 2), mkRat 3 2),
   ((2, 3), mkRat 3 2), ((3, 4), mkRat 3 2), ((4, 5), mkRat 3 2)]

/-- The parse state of `"c1ccccc1"` after the aromatic-boost stage. -/
def benzStateArom : ParseState :=
  { benzStateRing with bond := scatterNd benzStateRing.bond benzUpsArom }

/-- The conjugation-averaging updates of benzene. -/
def benzUpsConj : List ((ℤ × ℤ) × ℚ) :=
  [((0, 1), mkRat 3 2), ((0, 5), mkRat 3 2), ((1, 2), mkRat 3 2),
   ((4, 5), mkRat 3 2), ((3, 4), mkRat 3 2), ((2, 3), mkRat 3 2)]

/-- The final parse state of `"c1ccccc1"`. -/
def benzStateFinal : ParseState :=
  { benzStateArom with bond := scatterNd benzStateArom.bond benzUpsConj }

/-- All index pairs of the 6-by-6 heavy-atom block, row-major. -/
def benzPairs : List (ℤ × ℤ) :=
  (List.range 6).flatMap (fun i => (List.range 6).map (fun j => ((i : ℤ), (j : ℤ))))

/-! ### Concrete fixtures for the hydrogen completer -/

/-- The external classification of a lone sp3 carbon with zero heavy
neighbors: carbon and sp3, every heavy-neighbor-count flag false. -/
def singleCarbonTyping : GAFFTyping where
  is_carbon := fun _ => true
  is_nitrogen := fun _ => false
  is_oxygen := fun _ => false
  is_sulfur := fun _ => false
  is_phosphorus := fun _ => false
  is_sp1 := fun _ => false
  is_sp2 := fun _ => false
  is_sp3 := fun _ => true
  is_connected_to_1_heavy := fun _ => false
  is_connected_to_2_heavy := fun _ => false
  is_connected_to_3_heavy := fun _ => false

/-- The bond matrix of a single-atom molecule: no bonds. -/
def singleCarbonBond : ℕ → ℕ → ℚ := fun _ _ => 0

/-- A two-atom fixture (an oxygen bonded to a carbon) used to instantiate
the hydrogen-completer frame theorem: atom 0 is an sp3 oxygen with one
heavy neighbor, atom 1 an sp3 carbon with one heavy neighbor. -/
def etherTyping : GAFFTyping where
  is_carbon := fun i => i == 1
  is_nitrogen := fun _ => false
  is_oxygen := fun i => i == 0
  is_sulfur := fun _ => false
  is_phosphorus := fun _ => false
  is_sp1 := fun _ => false
  is_sp2 := fun _ => false
  is_sp3 := fun _ => true
  is_connected_to_1_heavy := fun _ => true
  is_connected_to_2_heavy := fun _ => false
  is_connected_to_3_heavy := fun _ => false

/-- The bond matrix of the two-atom fixture: a single bond (0, 1). -/
def etherBond : ℕ → ℕ → ℚ := fun i j => if i = 0 ∧ j = 1 then 1 else 0

/-! ## Helper lemmas -/

theorem qadd_eq (a b : ℚ) : qadd a b = a + b := by
  rw [qadd, Rat.divInt_eq_div]
  push_cast
  have ha : ((a.den : ℚ)) ≠ 0 := by exact_mod_cast a.den_nz
  have hb : ((b.den : ℚ)) ≠ 0 := by exact_mod_cast b.den_nz
  conv_rhs => rw [← Rat.num_div_den a, ← Rat.num_div_den b]
  field_simp

theorem qdiv_eq (a b : ℚ) : qdiv a b = a / b := by
  rcases eq_or_ne b 0 with rfl | hb
  · simp [qdiv]
  · have hbn : ((b.num : ℚ)) ≠ 0 := by exact_mod_cast Rat.num_ne_zero.mpr hb
    have ha : ((a.den : ℚ)) ≠ 0 := by exact_mod_cast a.den_nz
    have hbd : ((b.den : ℚ)) ≠ 0 := by exact_mod_cast b.den_nz
    rw [qdiv, Rat.divInt_eq_div]
    push_cast
    conv_rhs => rw [← Rat.num_div_den a, ← Rat.num_div_den b]
    field_simp

theorem qsum_eq (l : List ℚ) : qsum l = l.sum := by
  induction l with
  | nil => rfl
  | cons x xs ih => simp [qsum, List.sum_cons, qadd_eq] at *; rw [ih]

theorem scatterNd_nil (b : ℤ → ℤ → ℚ) : scatterNd b [] = b := rfl

theorem scatterNd_cons (b : ℤ → ℤ → ℚ) (u : (ℤ × ℤ) × ℚ) (ups : List ((ℤ × ℤ) × ℚ)) :
    scatterNd b (u :: ups) = scatterNd (updEntry b u.1 u.2) ups := rfl

theorem scatterNd_append (b : ℤ → ℤ → ℚ) (us vs : List ((ℤ × ℤ) × ℚ)) :
    scatterNd b (us ++ vs) = scatterNd (scatterNd b us) vs := by
  simp [scatterNd, List.foldl_append]

theorem scatterNd_eq_of_notMem (b : ℤ → ℤ → ℚ) (ups : List ((ℤ × ℤ) × ℚ)) (x y : ℤ)
    (h : ∀ u ∈ ups, u.1 ≠ (x, y)) : scatterNd b ups x y = b x y := by
  induction ups generalizing b with
  | nil => rfl
  | cons u us ih =>
    rw [scatterNd_cons, ih _ (fun v hv => h v (List.mem_cons_of_mem _ hv))]
    have hu : u.1 ≠ (x, y) := h u (List.mem_cons_self _ _)
    simp only [updEntry]
    rw [if_neg]
    rintro ⟨rfl, rfl⟩
    exact hu rfl

theorem scatterNd_eq_of_mem (b : ℤ → ℤ → ℚ) (ups : List ((ℤ × ℤ) × ℚ)) (x y : ℤ) (v : ℚ)
    (hv : ∀ u ∈ ups, u.1 = (x, y) → u.2 = v)
    (hm : ∃ u ∈ ups, u.1 = (x, y)) : scatterNd b ups x y = v := by
  induction ups generalizing b with
  | nil => obtain ⟨u, hu, _⟩ := hm; exact absurd hu (List.not_mem_nil u)
  | cons u us ih =>
    by_cases hus : ∃ w ∈ us, w.1 = (x, y)
    · exact scatterNd_cons _ _ _ ▸ ih _ (fun w hw => hv w (List.mem_cons_of_mem _ hw)) hus
    · have hu : u.1 = (x, y) := by
        obtain ⟨w, hw, hw1⟩ := hm
        rcases List.mem_cons.mp hw with rfl | hw2
        · exact hw1
        · exact absurd ⟨w, hw2, hw1⟩ hus
      have hb : updEntry b u.1 u.2 x y = u.2 := by simp [updEntry, hu]
      rw [scatterNd_cons,
        scatterNd_eq_of_notMem _ _ _ _ (fun w hw => fun he => hus ⟨w, hw, he⟩), hb]
      exact hv u (List.mem_cons_self _ _) hu

/-- Every position among the accumulated ring updates ends at bond order
1: all ring writes carry the value 1. -/
theorem ringApply_of_mem (chrs : List Char) (anchors : List ℤ) (b : ℤ → ℤ → ℚ)
    (a c : ℤ) (h : (a, c) ∈ ringUpdates chrs anchors) :
    ringApply chrs anchors b a c = 1 := by
  apply scatterNd_eq_of_mem
  · intro u hu _
    obtain ⟨ab, _, rfl⟩ := List.mem_map.mp hu
    rfl
  · exact ⟨((a, c), 1), List.mem_map_of_mem _ h, rfl⟩

/-- If every digit from index `i` to index `d` occurs in the topology
stream and there is enough fuel, the ring loop reaches digit index `d`
and its pairs are among the accumulated updates. -/
theorem ringGo_mem_of (chrs : List Char) (anchors : List ℤ) (p : ℤ × ℤ) :
    ∀ fuel i d, i ≤ d → d < 5 → d < i + fuel →
      (∀ k, i ≤ k → k ≤ d → connectionChr k ∈ chrs) →
      p ∈ ringPairsFor chrs anchors d → p ∈ ringGo chrs anchors fuel i := by
  intro fuel
  induction fuel with
  | zero => intro i d h1 _ h3 _ _; omega
  | succ f ih =>
    intro i d hid hd5 _ hall hp
    have hcond : i < 5 ∧ connectionChr i ∈ chrs :=
      ⟨lt_of_le_of_lt hid hd5, hall i le_rfl hid⟩
    show p ∈ if i < 5 ∧ connectionChr i ∈ chrs then
      ringPairsFor chrs anchors i ++ ringGo chrs anchors f (i + 1) else []
    rw [if_pos hcond]
    rcases eq_or_lt_of_le hid with rfl | hlt
    · exact List.mem_append_left _ hp
    · exact List.mem_append_right _
        (ih (i + 1) d hlt hd5 (by omega) (fun k hk1 hk2 => hall k (by omega) hk2) hp)

/-- Every element of `branchNewUps` comes from an aligned index of the
left/right lists. -/
theorem branchNewUps_mem (L R : List ℤ) (b : ℤ → ℤ → ℚ) (u : (ℤ × ℤ) × ℚ)
    (hu : u ∈ branchNewUps L R b) (hlen : L.length = R.length) :
    ∃ m, m < R.length ∧
      u = ((L.getD m 0, R.getD m 0 + 1), b (R.getD m 0) (R.getD m 0 + 1)) := by
  obtain ⟨lr, hlr, rfl⟩ := List.mem_map.mp hu
  obtain ⟨m, hm, hml⟩ := List.mem_iff_getElem.mp hlr
  have hmr : m < R.length := by
    have := hm
    rw [List.length_zip, hlen, Nat.min_self] at this
    exact this
  have hmL : m < L.length := hlen ▸ hmr
  refine ⟨m, hmr, ?_⟩
  have hz : (L.zip R)[m] = (L[m], R[m]) := List.getElem_zip
  rw [hz] at hml
  rw [← hml, List.getD_eq_getElem L 0 hmL, List.getD_eq_getElem R 0 hmr]

/-- `List.getD` after setting a different position. -/
theorem getD_set_ne (l : List ℤ) (a p : ℕ) (v : ℤ) (h : a ≠ p) :
    (l.set a v).getD p 0 = l.getD p 0 := by
  rcases lt_or_le p l.length with hp | hp
  · have hp2 : p < (l.set a v).length := by simpa using hp
    rw [List.getD_eq_getElem _ 0 hp2, List.getD_eq_getElem _ 0 hp,
      List.getElem_set_ne h]
  · rw [List.getD_eq_default _ 0 (by simpa using hp), List.getD_eq_default _ 0 hp]

/-- `List.getD` after setting the same (in-range) position. -/
theorem getD_set_eq (l : List ℤ) (a : ℕ) (v : ℤ) (h : a < l.length) :
    (l.set a v).getD a 0 = v := by
  have h2 : a < (l.set a v).length := by simpa using h
  rw [List.getD_eq_getElem _ 0 h2, List.getElem_set_self]

/-- Folding overlap steps preserves the list length. -/
theorem foldl_overlapStep_length (ol : List (ℕ × ℕ)) (M : List ℤ) :
    (ol.foldl overlapStep M).length = M.length := by
  induction ol generalizing M with
  | nil => rfl
  | cons q qs ih => rw [List.foldl_cons, ih]; simp [overlapStep]

/-- Folding overlap steps that never write position `p` leaves the entry
at `p` unchanged. -/
theorem foldl_overlapStep_getD (ol : List (ℕ × ℕ)) (M : List ℤ) (p : ℕ)
    (h : ∀ q ∈ ol, q.2 ≠ p) : (ol.foldl overlapStep M).getD p 0 = M.getD p 0 := by
  induction ol generalizing M with
  | nil => rfl
  | cons q qs ih =>
    rw [List.foldl_cons, ih _ (fun w hw => h w (List.mem_cons_of_mem _ hw))]
    exact getD_set_ne _ _ _ _ (h q (List.mem_cons_self _ _))

/-- Sum of a mapped `List.range` as a `Finset.range` sum. -/
theorem rangeList_sum {M : Type*} [AddCommMonoid M] (n : ℕ) (f : ℕ → M) :
    ((List.range n).map f).sum = ∑ x ∈ Finset.range n, f x := by
  induction n with
  | zero => simp
  | succ m ih =>
    rw [List.range_succ, List.map_append, List.sum_append, Finset.sum_range_succ, ih]
    simp

/-- Sum over a `flatMap` as a nested sum. -/
theorem flatMap_map_sum {α β : Type*} {M : Type*} [AddCommMonoid M]
    (l : List α) (g : α → List β) (f : β → M) :
    ((l.flatMap g).map f).sum = (l.map (fun a => ((g a).map f).sum)).sum := by
  induction l with
  | nil => rfl
  | cons x xs ih => simp [List.flatMap_cons, ih]

/-- Sum over a filtered list as a sum of guarded terms. -/
theorem filter_map_sum {α : Type*} {M : Type*} [AddCommMonoid M]
    (l : List α) (P : α → Bool) (f : α → M) :
    ((l.filter P).map f).sum = (l.map (fun x => if P x then f x else 0)).sum := by
  induction l with
  | nil => rfl
  | cons x xs ih =>
    by_cases hP : P x
    · rw [List.filter_cons_of_pos hP]
      simp [hP, ih]
    · rw [List.filter_cons_of_neg hP]
      simp [hP, ih]

/-- Length of a filtered list as a sum of indicators. -/
theorem filter_length_eq {α : Type*} (l : List α) (P : α → Bool) :
    (l.filter P).length = (l.map (fun x => if P x then (1 : ℕ) else 0)).sum := by
  induction l with
  | nil => rfl
  | cons x xs ih =>
    by_cases hP : P x
    · rw [List.filter_cons_of_pos hP]
      simp [hP, ih, Nat.add_comm]
    · rw [List.filter_cons_of_neg hP]
      simp [hP, ih]

/-- Sum over the values of a list as a sum over its index range. -/
theorem listVal_sum {M : Type*} [AddCommMonoid M] (l : List ℤ) (h : ℤ → M) :
    (l.map h).sum = ((List.range l.length).map (fun p => h (l.getD p 0))).sum := by
  induction l with
  | nil => rfl
  | cons x xs ih =>
    have hc : ((fun p => h ((x :: xs).getD p 0)) ∘ Nat.succ) =
        fun p => h (xs.getD p 0) := by
      funext p
      simp [Function.comp, List.getD_cons_succ]
    rw [List.map_cons, List.sum_cons, List.length_cons, List.range_succ_eq_map,
      List.map_cons, List.sum_cons, List.map_map, hc, ← ih, List.getD_cons_zero]

/-- Sum over the upper band pairs as a guarded double sum. -/
theorem bandPairs_map_sum {M : Type*} [AddCommMonoid M] (m : ℕ) (f : ℕ × ℕ → M) :
    ((bandPairs m).map f).sum =
      ∑ p ∈ Finset.range m, ∑ q ∈ Finset.range m, if p ≤ q then f (p, q) else 0 := by
  rw [bandPairs, flatMap_map_sum, rangeList_sum]
  refine Finset.sum_congr rfl (fun p _ => ?_)
  rw [List.map_map]
  have : (f ∘ fun q => (p, q)) = fun q => f (p, q) := rfl
  rw [this, filter_map_sum, rangeList_sum]
  refine Finset.sum_congr rfl (fun q _ => ?_)
  by_cases hpq : p ≤ q
  · simp [hpq]
  · simp [hpq]

/-- Sum over the row-major product of a list with itself as a double sum
over its index range. -/
theorem sysProd_map_sum {M : Type*} [AddCommMonoid M] (sys : List ℤ) (f : ℤ × ℤ → M) :
    ((sys.flatMap (fun a => sys.map (fun c => (a, c)))).map f).sum =
      ∑ p ∈ Finset.range sys.length, ∑ q ∈ Finset.range sys.length,
        f (sys.getD p 0, sys.getD q 0) := by
  rw [flatMap_map_sum, listVal_sum, rangeList_sum]
  refine Finset.sum_congr rfl (fun p _ => ?_)
  rw [List.map_map]
  have : (f ∘ fun c => (sys.getD p 0, c)) = fun c => f (sys.getD p 0, c) := rfl
  rw [this, listVal_sum, rangeList_sum]

/-- Splitting a guarded symmetric band sum: summing `g p q + g q p` over
the upper band equals the full double sum of `g` plus the diagonal. -/
theorem band_split_sum {M : Type*} [AddCommMonoid M] (m : ℕ) (g : ℕ → ℕ → M) :
    (∑ p ∈ Finset.range m, ∑ q ∈ Finset.range m,
        if p ≤ q then g p q + g q p else 0) =
      (∑ p ∈ Finset.range m, ∑ q ∈ Finset.range m, g p q) +
        ∑ p ∈ Finset.range m, g p p := by
  have h1 : (∑ p ∈ Finset.range m, ∑ q ∈ Finset.range m,
      if p ≤ q then g p q + g q p else 0) =
      (∑ p ∈ Finset.range m, ∑ q ∈ Finset.range m,
        ((if p ≤ q then g p q else 0) + if p ≤ q then g q p else 0)) := by
    refine Finset.sum_congr rfl (fun p _ => Finset.sum_congr rfl (fun q _ => ?_))
    by_cases hpq : p ≤ q <;> simp [hpq]
  have h2 : (∑ p ∈ Finset.range m, ∑ q ∈ Finset.range m,
      if p ≤ q then g q p else 0) =
      ∑ p ∈ Finset.range m, ∑ q ∈ Finset.range m, if q ≤ p then g p q else 0 :=
    Finset.sum_comm
  have h3 : (∑ p ∈ Finset.range m, ∑ q ∈ Finset.range m,
        ((if p ≤ q then g p q else 0) + if q ≤ p then g p q else 0)) =
      ∑ p ∈ Finset.range m, ∑ q ∈ Finset.range m,
        (g p q + if p = q then g p q else 0) := by
    refine Finset.sum_congr rfl (fun p _ => Finset.sum_congr rfl (fun q _ => ?_))
    rcases lt_trichotomy p q with h | h | h
    · simp [le_of_lt h, not_le.mpr h, ne_of_lt h]
    · simp [h]
    · simp [le_of_lt h, not_le.mpr h, (ne_of_lt h).symm]
  calc (∑ p ∈ Finset.range m, ∑ q ∈ Finset.range m,
        if p ≤ q then g p q + g q p else 0)
      = ∑ p ∈ Finset.range m, ∑ q ∈ Finset.range m,
          ((if p ≤ q then g p q else 0) + if p ≤ q then g q p else 0) := h1
    _ = (∑ p ∈ Finset.range m, ∑ q ∈ Finset.range m, if p ≤ q then g p q else 0)
          + ∑ p ∈ Finset.range m, ∑ q ∈ Finset.range m,
              if p ≤ q then g q p else 0 := by
        simp [Finset.sum_add_distrib]
    _ = (∑ p ∈ Finset.range m, ∑ q ∈ Finset.range m, if p ≤ q then g p q else 0)
          + ∑ p ∈ Finset.range m, ∑ q ∈ Finset.range m,
              if q ≤ p then g p q else 0 := by rw [h2]
    _ = ∑ p ∈ Finset.range m, ∑ q ∈ Finset.range m,
          ((if p ≤ q then g p q else 0) + if q ≤ p then g p q else 0) := by
        simp [Finset.sum_add_distrib]
    _ = ∑ p ∈ Finset.range m, ∑ q ∈ Finset.range m,
          (g p q + if p = q then g p q else 0) := h3
    _ = (∑ p ∈ Finset.range m, ∑ q ∈ Finset.range m, g p q)
          + ∑ p ∈ Finset.range m, ∑ q ∈ Finset.range m,
              if p = q then g p q else 0 := by
        simp [Finset.sum_add_distrib]
    _ = (∑ p ∈ Finset.range m, ∑ q ∈ Finset.range m, g p q)
          + ∑ p ∈ Finset.range m, g p p := by
        congr 1
        refine Finset.sum_congr rfl (fun p hp => ?_)
        rw [Finset.sum_ite_eq (Finset.range m) p (fun q => g p q), if_pos hp]

/-- Every recorded hydrogen parent is a valid heavy-atom index. -/
theorem hParents_lt (T : GAFFTyping) (n : ℕ) : ∀ x ∈ hParents T n, x < n := by
  intro x hx
  rcases List.mem_append.mp hx with hx1 | hx3
  · rcases List.mem_append.mp hx1 with hx1 | hx2
    · exact List.mem_range.mp (List.mem_of_mem_filter hx1)
    · obtain ⟨i, hi, hxi⟩ := List.mem_flatMap.mp hx2
      have : x = i := by
        rcases List.mem_cons.mp hxi with rfl | h2
        · rfl
        · rcases List.mem_cons.mp h2 with rfl | h3
          · rfl
          · exact absurd h3 (List.not_mem_nil x)
      exact this ▸ List.mem_range.mp (List.mem_of_mem_filter hi)
  · obtain ⟨i, hi, hxi⟩ := List.mem_flatMap.mp hx3
    have : x = i := by
      rcases List.mem_cons.mp hxi with rfl | h2
      · rfl
      · rcases List.mem_cons.mp h2 with rfl | h3
        · rfl
        · rcases List.mem_cons.mp h3 with rfl | h4
          · rfl
          · exact absurd h4 (List.not_mem_nil x)
    exact this ▸ List.mem_range.mp (List.mem_of_mem_filter hi)

/-- In-range `getD` produces a member of the list. -/
theorem getD_mem_of_lt (l : List ℕ) (p : ℕ) (h : p < l.length) : l.getD p 0 ∈ l := by
  rw [List.getD_eq_getElem _ _ h]
  exact List.getElem_mem h

/-! ## Claims -/

/-- C1 (counterexample): for the heavy-atom molecule consisting of a
single carbon whose external classification is sp3 with zero heavy
neighbors, `add_hydrogen` appends zero atoms, not four: the output atom
list still has length 1, not 5. -/
theorem c1_single_carbon_counterexample :
    (addHydrogen [0] singleCarbonBond singleCarbonTyping).1.length = 1 ∧
      ¬ (addHydrogen [0] singleCarbonBond singleCarbonTyping).1.length = 1 + 4 := by
  decide

/-- C1 (amended): for a heavy-atom molecule consisting of a single sp3
carbon with zero heavy neighbors, `add_hydrogen` appends exactly zero
hydrogen pseudo-atoms (the rule table matches no atom with zero heavy
neighbors), leaving the atom list and the bond matrix unchanged. -/
theorem c1_single_carbon_amended :
    hParents singleCarbonTyping 1 = [] ∧
      (addHydrogen [0] singleCarbonBond singleCarbonTyping).1 = [0] ∧
      (addHydrogen [0] singleCarbonBond singleCarbonTyping).2 0 0 = 0 := by
  decide

/-- C2 (amended): in the ring-closure stage, a handled digit that does
not occur in the topology-marker stream is not skipped: the scan stops
there, contributing no updates from that digit on; digits occurring
after the first absent one are not resolved. -/
theorem c2_ring_scan_stops (chrs : List Char) (anchors : List ℤ) (fuel i : ℕ)
    (h : connectionChr i ∉ chrs) : ringGo chrs anchors fuel i = [] := by
  cases fuel with
  | zero => rfl
  | succ f => simp [ringGo, h]

/-- C2 (witness): with only digit 2 present, the scan starting at digit
1 stops immediately and produces no ring updates at all. -/
theorem c2_ring_scan_stops_witness :
    connectionChr 0 ∉ ['2', '2'] ∧ ringGo ['2', '2'] [0, 2] 5 0 = [] :=
  ⟨by decide, c2_ring_scan_stops ['2', '2'] [0, 2] 5 0 (by decide)⟩

/-- C2 (counterexample): in `"C2CC2"` digit 2 occurs (twice, anchored at
atoms 0 and 2) but digit 1 does not, and the ring bond (0, 2) is not
resolved: the final bond order is 0, not 1. -/
theorem c2_absent_digit_counterexample :
    (parseSmiles "C2CC2").bond 0 2 = 0 ∧ ¬ (parseSmiles "C2CC2").bond 0 2 = 1 := by
  decide

/-- C3 (amended): a ring digit `d` with exactly two occurrences is
resolved into an order-1 bond between the two anchor atoms when `d` is
at most 5 and every digit from 1 to `d` occurs in the topology stream
(digit 6 is never processed because the loop bound is 5, and a digit is
reached only when all smaller digits occur). -/
theorem c3_ring_digit_resolved (chrs : List Char) (anchors : List ℤ) (b : ℤ → ℤ → ℚ)
    (d : ℕ) (a1 a2 : ℤ) (hd1 : 1 ≤ d) (hd5 : d ≤ 5)
    (hall : ∀ k ∈ List.range d, connectionChr k ∈ chrs)
    (hanch : sortAnchors (anchorsWhere chrs anchors (connectionChr (d - 1))) = [a1, a2]) :
    ringApply chrs anchors b a1 a2 = 1 := by
  apply ringApply_of_mem
  apply ringGo_mem_of chrs anchors _ 5 0 (d - 1) (by omega) (by omega) (by omega)
    (fun k _ hk2 => hall k (List.mem_range.mpr (by omega)))
  show (a1, a2) ∈ ringPairsFor chrs anchors (d - 1)
  simp [ringPairsFor, hanch, List.range_succ]

/-- C3 (witness): digits 1 and 2 both occur; digit 2 occurs exactly
twice with sorted anchors 5 and 9, and the ring stage sets the bond
(5, 9) to order 1. -/
theorem c3_ring_digit_resolved_witness :
    (∀ k ∈ List.range 2, connectionChr k ∈ ['1', '1', '2', '2']) ∧
      sortAnchors (anchorsWhere ['1', '1', '2', '2'] [0, 3, 5, 9] '2') = [5, 9] ∧
      ringApply ['1', '1', '2', '2'] [0, 3, 5, 9] (fun _ _ => 0) 5 9 = 1 :=
  ⟨by decide, by decide,
    c3_ring_digit_resolved ['1', '1', '2', '2'] [0, 3, 5, 9] (fun _ _ => 0) 2 5 9
      (by decide) (by decide) (by decide) (by decide)⟩

/-- C3 (counterexample): `"C3CC3"` contains exactly two occurrences of
digit 3, each immediately preceded by a heavy atom, yet no bond is
created between atoms 0 and 2 (digit 1 is absent, so the scan never
reaches digit 3); moreover, even with digits 1-6 all present, digit 6
contributes no ring pair (the loop bound is 5). -/
theorem c3_digit_counterexample :
    ((parseSmiles "C3CC3").bond 0 2 = 0 ∧ ¬ (parseSmiles "C3CC3").bond 0 2 = 1) ∧
      ((10 : ℤ), (11 : ℤ)) ∉ ringUpdates
        ['1', '1', '2', '2', '3', '3', '4', '4', '5', '5', '6', '6']
        [0, 1, 2, 3, 4, 5, 6, 7, 8, 9, 10, 11] := by
  decide

/-- C6 (amended): the ring-closure stage overrides the bond order at
every atom pair it connects: each pair among the accumulated ring
updates ends at order exactly 1, replacing (not preserving) whatever
order was there before. -/
theorem c6_ring_replaces_order (chrs : List Char) (anchors : List ℤ) (b : ℤ → ℤ → ℚ)
    (a c : ℤ) (h : (a, c) ∈ ringUpdates chrs anchors) :
    ringApply chrs anchors b a c = 1 :=
  ringApply_of_mem chrs anchors b a c h

/-- C6 (witness): a pair connected by digit 1 whose prior bond order is
2 is overwritten to order 1 by the ring stage. -/
theorem c6_ring_replaces_order_witness :
    ((0 : ℤ), (2 : ℤ)) ∈ ringUpdates ['1', '1'] [0, 2] ∧
      ringApply ['1', '1'] [0, 2] (fun _ _ => 2) 0 2 = 1 :=
  ⟨by decide, c6_ring_replaces_order ['1', '1'] [0, 2] (fun _ _ => 2) 0 2 (by decide)⟩

/-- C6 (counterexample): in `"C1CC1=C1CC1"` the pair (2, 3) is connected
by ring digit 1 (which occurs four times, so all sorted pairwise
combinations are connected) and already carries bond order 2 from the
`=` marker before ring resolution; the ring-closure stage overwrites it
to order 1 instead of leaving it unchanged. -/
theorem c6_ring_overrides_counterexample :
    (parsePreRing "C1CC1=C1CC1").bond 2 3 = 2 ∧
      ((2 : ℤ), (3 : ℤ)) ∈ ringUpdates (parsePreRing "C1CC1=C1CC1").topoChrs
        (parsePreRing "C1CC1=C1CC1").anchors ∧
      (parsePostRing "C1CC1=C1CC1").bond 2 3 = 1 ∧
      ¬ (parsePostRing "C1CC1=C1CC1").bond 2 3 = 2 := by
  refine ⟨by decide, by decide, by decide, by decide⟩

/-- C8: for every occurrence of a double-bond marker with anchor `a`
(provided `a` is not also a triple-bond anchor, since the triple scatter
runs second), the bond-order stage sets the bond `(a, a+1)` to 2, and
for every triple-bond anchor `t` it sets `(t, t+1)` to 3; in particular
`"C=C"` yields bond (0, 1) of order exactly 2 and `"C#C"` of order
exactly 3. -/
theorem c8_bond_markers (chrs : List Char) (anchors : List ℤ) (b : ℤ → ℤ → ℚ)
    (a t : ℤ) (ha : a ∈ anchorsWhere chrs anchors '=')
    (hna : a ∉ anchorsWhere chrs anchors '#')
    (ht : t ∈ anchorsWhere chrs anchors '#') :
    bondOrderApply chrs anchors b a (a + 1) = 2 ∧
      bondOrderApply chrs anchors b t (t + 1) = 3 ∧
      (parseSmiles "C=C").bond 0 1 = 2 ∧ (parseSmiles "C#C").bond 0 1 = 3 := by
  refine ⟨?_, ?_, by decide, by decide⟩
  · rw [bondOrderApply, scatterNd_eq_of_notMem]
    · apply scatterNd_eq_of_mem
      · intro u hu _
        obtain ⟨w, _, rfl⟩ := List.mem_map.mp hu
        rfl
      · exact ⟨((a, a + 1), 2), List.mem_map_of_mem _ ha, rfl⟩
    · intro u hu he
      obtain ⟨w, hw, rfl⟩ := List.mem_map.mp hu
      have hwa : w = a := by
        have := congrArg Prod.fst he
        simpa using this
      exact hna (hwa ▸ hw)
  · apply scatterNd_eq_of_mem
    · intro u hu _
      obtain ⟨w, _, rfl⟩ := List.mem_map.mp hu
      rfl
    · exact ⟨((t, t + 1), 3), List.mem_map_of_mem _ ht, rfl⟩

/-- C4: for every recorded branch pair `(left, right)` of the resolver's
final aligned lists (with every pair's left anchor strictly below its
right marker, as holds for well-formed input), the branch stage sets the
bond `(right, right+1)` to 0 and the bond `(left, right+1)` to the order
previously held by `(right, right+1)`; in particular for `"CC(C)C"`,
atom 1 ends bonded to atoms 0, 2, and 3 each with order 1, and bond
(2, 3) is 0. -/
theorem c4_branch_rewiring (L R : List ℤ) (b : ℤ → ℤ → ℚ) (k : ℕ)
    (hlen : L.length = R.length) (hk : k < R.length)
    (hlr : ∀ m ∈ List.range R.length, L.getD m 0 < R.getD m 0) :
    branchApply L R b (R.getD k 0) (R.getD k 0 + 1) = 0 ∧
      branchApply L R b (L.getD k 0) (R.getD k 0 + 1) =
        b (R.getD k 0) (R.getD k 0 + 1) ∧
      ((parseSmiles "CC(C)C").bond 0 1 = 1 ∧ (parseSmiles "CC(C)C").bond 1 2 = 1 ∧
        (parseSmiles "CC(C)C").bond 1 3 = 1 ∧ (parseSmiles "CC(C)C").bond 2 3 = 0) := by
  refine ⟨?_, ?_, by decide, by decide, by decide, by decide⟩
  · rw [branchApply, scatterNd_eq_of_notMem]
    · apply scatterNd_eq_of_mem
      · intro u hu _
        obtain ⟨r, _, rfl⟩ := List.mem_map.mp hu
        rfl
      · refine ⟨((R.getD k 0, R.getD k 0 + 1), 0), ?_, rfl⟩
        apply List.mem_map_of_mem
        rw [List.getD_eq_getElem R 0 hk]
        exact List.getElem_mem hk
    · intro u hu he
      obtain ⟨m, hm, rfl⟩ := branchNewUps_mem L R b u hu hlen
      have h1 : L.getD m 0 = R.getD k 0 := congrArg Prod.fst he
      have h2 : R.getD m 0 = R.getD k 0 := by
        have := congrArg Prod.snd he
        simpa using this
      have := hlr m (List.mem_range.mpr hm)
      omega
  · apply scatterNd_eq_of_mem
    · intro u hu he
      obtain ⟨m, hm, rfl⟩ := branchNewUps_mem L R b u hu hlen
      have h2 : R.getD m 0 = R.getD k 0 := by
        have := congrArg Prod.snd he
        simpa using this
      rw [h2]
    · have hkL : k < L.length := hlen ▸ hk
      have hkz : k < (L.zip R).length := by
        rw [List.length_zip, hlen, Nat.min_self]; exact hk
      refine ⟨((L.getD k 0, R.getD k 0 + 1), b (R.getD k 0) (R.getD k 0 + 1)), ?_, rfl⟩
      apply List.mem_map.mpr
      refine ⟨(L.getD k 0, R.getD k 0), ?_, rfl⟩
      have hz : (L.zip R)[k] = (L[k], R[k]) := List.getElem_zip
      rw [List.getD_eq_getElem L 0 hkL, List.getD_eq_getElem R 0 hk, ← hz]
      exact List.getElem_mem hkz

/-- C4 (witness): a single recorded pair (0, 1) over a matrix whose bond
(1, 2) is 5: the stage zeroes (1, 2) and writes 5 at (0, 2). -/
theorem c4_branch_rewiring_witness :
    branchApply [0] [1] (fun x y => if x = 1 ∧ y = 2 then 5 else 0) 1 2 = 0 ∧
      branchApply [0] [1] (fun x y => if x = 1 ∧ y = 2 then 5 else 0) 0 2 =
        (fun x y : ℤ => if x = 1 ∧ y = 2 then (5 : ℚ) else 0) 1 2 ∧
      ((parseSmiles "CC(C)C").bond 0 1 = 1 ∧ (parseSmiles "CC(C)C").bond 1 2 = 1 ∧
        (parseSmiles "CC(C)C").bond 1 3 = 1 ∧ (parseSmiles "CC(C)C").bond 2 3 = 0) :=
  c4_branch_rewiring [0] [1] (fun x y => if x = 1 ∧ y = 2 then 5 else 0) 0
    (by decide) (by decide) (by decide)

/-- C5: after the overlap post-pass, when the overlap list records that
pair `j`'s left anchor equals pair `i`'s right marker and neither entry
is rewritten later, the corrected left anchor of pair `j` equals the
(already-corrected) left anchor of pair `i`, so consecutive sibling
branches reattach to the shared backbone atom; in particular for
`"CC(C)(C)C"` both branch atoms and the following chain atom are bonded
to atom 1. -/
theorem c5_sibling_reattach (L R : List ℤ) (i j : ℕ) (pre post : List (ℕ × ℕ))
    (hdec : overlapList L R = pre ++ (i, j) :: post)
    (hij : i ≠ j) (hjlen : j < L.length)
    (hpost : ∀ q ∈ post, q.2 ≠ i ∧ q.2 ≠ j) :
    (fixOverlaps L R).getD j 0 = (fixOverlaps L R).getD i 0 ∧
      ((parseSmiles "CC(C)(C)C").bond 1 2 = 1 ∧
        (parseSmiles "CC(C)(C)C").bond 1 3 = 1 ∧
        (parseSmiles "CC(C)(C)C").bond 1 4 = 1) := by
  refine ⟨?_, by decide, by decide, by decide⟩
  rw [fixOverlaps, hdec, List.foldl_append, List.foldl_cons]
  have hlenM : (List.foldl overlapStep L pre).length = L.length :=
    foldl_overlapStep_length pre L
  rw [foldl_overlapStep_getD post _ j (fun q hq => (hpost q hq).2),
    foldl_overlapStep_getD post _ i (fun q hq => (hpost q hq).1)]
  show (List.set _ j _).getD j 0 = (List.set _ j _).getD i 0
  rw [getD_set_eq _ _ _ (hlenM ▸ hjlen), getD_set_ne _ _ _ _ (fun he => hij he.symm)]

/-- C5 (witness): the recorded pairs of `"CC(C)(C)C"` are (1, 2) and
(2, 3); the overlap (0, 1) rewrites the second left anchor to the first
one, so both final left anchors agree. -/
theorem c5_sibling_reattach_witness :
    overlapList [1, 2] [2, 3] = [] ++ (0, 1) :: [] ∧
      (fixOverlaps [1, 2] [2, 3]).getD 1 0 = (fixOverlaps [1, 2] [2, 3]).getD 0 0 ∧
      ((parseSmiles "CC(C)(C)C").bond 1 2 = 1 ∧
        (parseSmiles "CC(C)(C)C").bond 1 3 = 1 ∧
        (parseSmiles "CC(C)(C)C").bond 1 4 = 1) := by
  have h := c5_sibling_reattach [1, 2] [2, 3] 0 1 [] []
    (by decide) (by decide) (by decide) (by decide)
  exact ⟨by decide, h.1, h.2⟩

set_option maxHeartbeats 12000000 in
/-- C7: for `"c1ccccc1"` (benzene), after the aromatic-boost and
conjugation-averaging passes the resolved matrix holds exactly six
nonzero heavy-atom bonds, all carrying one identical order strictly
between 1 and 2 (namely 3/2). -/
theorem c7_benzene :
    ((benzPairs.filter
        (fun p => (parseSmiles "c1ccccc1").bond p.1 p.2 != 0)).length = 6) ∧
      ∃ v : ℚ, 1 < v ∧ v < 2 ∧
        ∀ p ∈ benzPairs, (parseSmiles "c1ccccc1").bond p.1 p.2 ≠ 0 →
          (parseSmiles "c1ccccc1").bond p.1 p.2 = v := by
  have h0 : parseSmiles "c1ccccc1" = stageConj benzStateArom := by
    show stageConj (stageAromatic (parsePostRing "c1ccccc1")) = _
    rw [show parsePostRing "c1ccccc1" = benzStateRing from rfl]
    rw [show stageAromatic benzStateRing = benzStateArom from rfl]
  have h1 : sp2Of benzStateArom = [0, 1, 2, 3, 4, 5] := by decide
  have h2 : conjSystemsFrom benzStateArom.bond [0, 1, 2, 3, 4, 5] =
      [[0, 1, 5, 4, 3, 2]] := by decide
  have h3 : conjUpsFrom benzStateArom.bond [0, 1, 2, 3, 4, 5] [[0, 1, 5, 4, 3, 2]] =
      benzUpsConj := by decide
  have h4 : stageConj benzStateArom = benzStateFinal := by
    unfold stageConj
    rw [h1, h2, h3]
    rfl
  rw [h0, h4]
  exact ⟨by decide, ⟨mkRat 3 2, by decide, by decide, by decide⟩⟩

/-- C9: for every input molecule and every classification, the molecule
returned by `add_hydrogen` has atom count `N` plus the number of
hydrogens added, its top-left `N`-by-`N` block equals the input bond
matrix entry for entry, every appended hydrogen column holds exactly one
nonzero entry — an order-1 bond in its parent heavy atom's row — and the
hydrogen-row block is entirely zero. -/
theorem c9_hydrogen_frame (atoms : List ℕ) (bond : ℕ → ℕ → ℚ) (T : GAFFTyping) :
    (addHydrogen atoms bond T).1.length =
        atoms.length + (hParents T atoms.length).length ∧
      (∀ i j, i < atoms.length → j < atoms.length →
        (addHydrogen atoms bond T).2 i j = bond i j) ∧
      (∀ h, h < (hParents T atoms.length).length →
        (hParents T atoms.length).getD h 0 < atoms.length ∧
          (addHydrogen atoms bond T).2 ((hParents T atoms.length).getD h 0)
            (atoms.length + h) = 1 ∧
          ∀ i, i < atoms.length → i ≠ (hParents T atoms.length).getD h 0 →
            (addHydrogen atoms bond T).2 i (atoms.length + h) = 0) ∧
      (∀ i j, atoms.length ≤ i → (addHydrogen atoms bond T).2 i j = 0) := by
  refine ⟨?_, ?_, ?_, ?_⟩
  · simp [addHydrogen]
  · intro i j hi hj
    simp only [addHydrogen]
    rw [if_pos hi, if_pos hj]
  · intro h hh
    have hpmem : (hParents T atoms.length).getD h 0 ∈ hParents T atoms.length := by
      rw [List.getD_eq_getElem _ _ hh]
      exact List.getElem_mem hh
    have hp : (hParents T atoms.length).getD h 0 < atoms.length :=
      hParents_lt T atoms.length _ hpmem
    have he : (hParents T atoms.length).getD h atoms.length =
        (hParents T atoms.length).getD h 0 := by
      rw [List.getD_eq_getElem _ _ hh, List.getD_eq_getElem _ _ hh]
    refine ⟨hp, ?_, ?_⟩
    · simp only [addHydrogen]
      rw [if_pos hp, if_neg (by omega), if_pos (by omega),
        show atoms.length + h - atoms.length = h from by omega, he, if_pos rfl]
    · intro i hi hne
      simp only [addHydrogen]
      rw [if_pos hi, if_neg (by omega), if_pos (by omega),
        show atoms.length + h - atoms.length = h from by omega, he,
        if_neg (fun hc => hne hc.symm)]
  · intro i j hi
    simp only [addHydrogen]
    rw [if_neg (by omega)]

/-- C9 (witness): the frame property instantiated on a two-atom
oxygen-carbon molecule, where the completer appends one hydrogen on the
oxygen and three on the carbon. -/
theorem c9_hydrogen_frame_witness :
    (addHydrogen [2, 0] etherBond etherTyping).1.length =
        [2, 0].length + (hParents etherTyping [2, 0].length).length ∧
      (∀ i j, i < [2, 0].length → j < [2, 0].length →
        (addHydrogen [2, 0] etherBond etherTyping).2 i j = etherBond i j) ∧
      (∀ h, h < (hParents etherTyping [2, 0].length).length →
        (hParents etherTyping [2, 0].length).getD h 0 < [2, 0].length ∧
          (addHydrogen [2, 0] etherBond etherTyping).2
            ((hParents etherTyping [2, 0].length).getD h 0) ([2, 0].length + h) = 1 ∧
          ∀ i, i < [2, 0].length →
            i ≠ (hParents etherTyping [2, 0].length).getD h 0 →
            (addHydrogen [2, 0] etherBond etherTyping).2 i ([2, 0].length + h) = 0) ∧
      (∀ i j, [2, 0].length ≤ i →
        (addHydrogen [2, 0] etherBond etherTyping).2 i j = 0) :=
  c9_hydrogen_frame [2, 0] etherBond etherTyping

/-- C10: the conjugation-averaging pass conserves total bond order per
component: for every processed component, the sum of the bond orders
over the component's internal nonzero bonds after the averaging
overwrite equals the sum before it, in exact rational arithmetic
(hypotheses: the bond matrix is upper-triangular and nonnegative on the
component, as the pipeline guarantees, and the component has at least
one internal bond). -/
theorem c10_conjugation_conserves (b : ℤ → ℤ → ℚ) (sys : List ℤ)
    (hupper : ∀ x ∈ sys, ∀ y ∈ sys, b x y ≠ 0 → x < y)
    (hpos : ∀ x ∈ sys, ∀ y ∈ sys, 0 ≤ b x y)
    (hcnt : systemCount (fullOf b) sys ≠ 0) :
    ((systemPositions b sys).map
        (fun ac => conjApplySystem b sys ac.1 ac.2)).sum =
      ((systemPositions b sys).map (fun ac => b ac.1 ac.2)).sum := by
  have hmem : ∀ p, p < sys.length → sys.getD p 0 ∈ sys := by
    intro p hp
    rw [List.getD_eq_getElem _ _ hp]
    exact List.getElem_mem hp
  have hdiag : ∀ p, p < sys.length → b (sys.getD p 0) (sys.getD p 0) = 0 := by
    intro p hp
    by_contra hne
    exact lt_irrefl _ (hupper _ (hmem p hp) _ (hmem p hp) hne)
  have honce : ∀ p q, p < sys.length → q < sys.length →
      0 < b (sys.getD p 0) (sys.getD q 0) → b (sys.getD q 0) (sys.getD p 0) = 0 := by
    intro p q hp hq hpq
    by_contra hne
    have h1 := hupper _ (hmem p hp) _ (hmem q hq) (ne_of_gt hpq)
    have h2 := hupper _ (hmem q hq) _ (hmem p hp) hne
    omega
  have hzero : ∀ p q, p < sys.length → q < sys.length →
      ¬ 0 < b (sys.getD p 0) (sys.getD q 0) →
      b (sys.getD p 0) (sys.getD q 0) = 0 := by
    intro p q hp hq hnp
    exact le_antisymm (not_lt.mp hnp) (hpos _ (hmem p hp) _ (hmem q hq))
  -- every overwritten position receives the system's mean bond order
  have hval : ∀ ac ∈ systemPositions b sys,
      conjApplySystem b sys ac.1 ac.2 = systemMean (fullOf b) sys := by
    intro ac hac
    apply scatterNd_eq_of_mem
    · intro u hu _
      obtain ⟨w, _, rfl⟩ := List.mem_map.mp hu
      rfl
    · exact ⟨(ac, systemMean (fullOf b) sys), List.mem_map_of_mem _ hac, rfl⟩
  have hLHS : ((systemPositions b sys).map
      (fun ac => conjApplySystem b sys ac.1 ac.2)).sum =
      ((systemPositions b sys).length : ℚ) * systemMean (fullOf b) sys := by
    rw [List.map_congr_left hval, List.map_const', List.sum_replicate, nsmul_eq_mul]
  -- the number of overwritten positions equals the counted band entries
  have hcount : (systemPositions b sys).length = systemCount (fullOf b) sys := by
    rw [systemPositions, filter_length_eq,
      sysProd_map_sum sys
        (fun ac => if decide (0 < b ac.1 ac.2) then (1 : ℕ) else 0),
      systemCount, filter_length_eq,
      bandPairs_map_sum sys.length
        (fun pq => if decide (0 < fullOf b (sys.getD pq.1 0) (sys.getD pq.2 0))
          then (1 : ℕ) else 0)]
    have hsplit := band_split_sum sys.length
      (fun p q => if 0 < b (sys.getD p 0) (sys.getD q 0) then (1 : ℕ) else 0)
    have hstep : (∑ p ∈ Finset.range sys.length, ∑ q ∈ Finset.range sys.length,
        if p ≤ q then
          (if decide (0 < fullOf b (sys.getD p 0) (sys.getD q 0))
            then (1 : ℕ) else 0) else 0) =
        ∑ p ∈ Finset.range sys.length, ∑ q ∈ Finset.range sys.length,
          if p ≤ q then
            ((if 0 < b (sys.getD p 0) (sys.getD q 0) then (1 : ℕ) else 0) +
              if 0 < b (sys.getD q 0) (sys.getD p 0) then (1 : ℕ) else 0) else 0 := by
      refine Finset.sum_congr rfl (fun p hp => Finset.sum_congr rfl (fun q hq => ?_))
      rcases le_or_lt p q with hpq | hpq
      · rw [if_pos hpq, if_pos hpq]
        have hp' := Finset.mem_range.mp hp
        have hq' := Finset.mem_range.mp hq
        rw [fullOf, qadd_eq]
        rcases lt_or_le 0 (b (sys.getD p 0) (sys.getD q 0)) with h1 | h1
        · rw [honce p q hp' hq' h1]
          simp [h1, add_pos_iff, lt_irrefl]
        · have hb1 : b (sys.getD p 0) (sys.getD q 0) = 0 :=
            hzero p q hp' hq' (not_lt.mpr h1)
          rw [hb1]
          rcases lt_or_le 0 (b (sys.getD q 0) (sys.getD p 0)) with h2 | h2
          · simp [h2]
          · have hb2 : b (sys.getD q 0) (sys.getD p 0) = 0 :=
              hzero q p hq' hp' (not_lt.mpr h2)
            rw [hb2]
            simp
      · rw [if_neg (not_le.mpr hpq), if_neg (not_le.mpr hpq)]
    have hdiag2 : (∑ p ∈ Finset.range sys.length,
        if 0 < b (sys.getD p 0) (sys.getD p 0) then (1 : ℕ) else 0) = 0 := by
      refine Finset.sum_eq_zero (fun p hp => ?_)
      rw [hdiag p (Finset.mem_range.mp hp)]
      simp
    have hprod : (∑ p ∈ Finset.range sys.length, ∑ q ∈ Finset.range sys.length,
        if decide (0 < b (sys.getD p 0, sys.getD q 0).1 (sys.getD p 0, sys.getD q 0).2)
          then (1 : ℕ) else 0) =
        ∑ p ∈ Finset.range sys.length, ∑ q ∈ Finset.range sys.length,
          if 0 < b (sys.getD p 0) (sys.getD q 0) then (1 : ℕ) else 0 := by
      simp
    rw [hprod, hstep, hsplit, hdiag2, Nat.add_zero]
  -- the pre-pass sum over the positions equals the system total
  have hRHS : ((systemPositions b sys).map (fun ac => b ac.1 ac.2)).sum =
      systemTotal (fullOf b) sys := by
    rw [systemPositions, filter_map_sum, sysProd_map_sum sys
        (fun ac => if decide (0 < b ac.1 ac.2) then b ac.1 ac.2 else 0),
      systemTotal, qsum_eq,
      bandPairs_map_sum sys.length
        (fun pq => fullOf b (sys.getD pq.1 0) (sys.getD pq.2 0))]
    have hsplit := band_split_sum sys.length
      (fun p q => b (sys.getD p 0) (sys.getD q 0))
    have hstep : (∑ p ∈ Finset.range sys.length, ∑ q ∈ Finset.range sys.length,
        if p ≤ q then fullOf b (sys.getD p 0) (sys.getD q 0) else 0) =
        ∑ p ∈ Finset.range sys.length, ∑ q ∈ Finset.range sys.length,
          if p ≤ q then (b (sys.getD p 0) (sys.getD q 0) +
            b (sys.getD q 0) (sys.getD p 0)) else 0 := by
      refine Finset.sum_congr rfl (fun p _ => Finset.sum_congr rfl (fun q _ => ?_))
      rw [fullOf, qadd_eq]
    have hdiag2 : (∑ p ∈ Finset.range sys.length,
        b (sys.getD p 0) (sys.getD p 0)) = 0 := by
      refine Finset.sum_eq_zero (fun p hp => hdiag p (Finset.mem_range.mp hp))
    have hprod : (∑ p ∈ Finset.range sys.length, ∑ q ∈ Finset.range sys.length,
        if decide (0 < b (sys.getD p 0, sys.getD q 0).1 (sys.getD p 0, sys.getD q 0).2)
          then b (sys.getD p 0, sys.getD q 0).1 (sys.getD p 0, sys.getD q 0).2 else 0) =
        ∑ p ∈ Finset.range sys.length, ∑ q ∈ Finset.range sys.length,
          b (sys.getD p 0) (sys.getD q 0) := by
      refine Finset.sum_congr rfl (fun p hp => Finset.sum_congr rfl (fun q hq => ?_))
      have hp' := Finset.mem_range.mp hp
      have hq' := Finset.mem_range.mp hq
      show (if decide (0 < b (sys.getD p 0) (sys.getD q 0)) = true
        then b (sys.getD p 0) (sys.getD q 0) else 0) = b (sys.getD p 0) (sys.getD q 0)
      rcases lt_or_le 0 (b (sys.getD p 0) (sys.getD q 0)) with h1 | h1
      · rw [if_pos (decide_eq_true h1)]
      · have hb1 : b (sys.getD p 0) (sys.getD q 0) = 0 :=
          hzero p q hp' hq' (not_lt.mpr h1)
        rw [hb1]
        simp
    rw [hprod, hstep, hsplit, hdiag2, add_zero]
  rw [hLHS, hRHS, hcount, systemMean, qdiv_eq, mul_comm,
    div_mul_cancel₀ _ (Nat.cast_ne_zero.mpr hcnt)]

/-- C10 (witness): a three-atom chain component with bonds (0, 1) and
(1, 2) of orders 1 and 2 conserves its total (each becomes 3/2, sum 3
both before and after). -/
theorem c10_conjugation_conserves_witness :
    systemCount (fullOf (fun x y : ℤ => if x = 0 ∧ y = 1 then 1
      else if x = 1 ∧ y = 2 then 2 else 0)) [0, 1, 2] ≠ 0 ∧
    ((systemPositions (fun x y : ℤ => if x = 0 ∧ y = 1 then 1
        else if x = 1 ∧ y = 2 then 2 else 0) [0, 1, 2]).map
        (fun ac => conjApplySystem (fun x y : ℤ => if x = 0 ∧ y = 1 then 1
          else if x = 1 ∧ y = 2 then 2 else 0) [0, 1, 2] ac.1 ac.2)).sum =
      ((systemPositions (fun x y : ℤ => if x = 0 ∧ y = 1 then 1
        else if x = 1 ∧ y = 2 then 2 else 0) [0, 1, 2]).map
        (fun ac => (fun x y : ℤ => if x = 0 ∧ y = 1 then 1
          else if x = 1 ∧ y = 2 then 2 else 0) ac.1 ac.2)).sum :=
  ⟨by decide,
    c10_conjugation_conserves
      (fun x y : ℤ => if x = 0 ∧ y = 1 then 1 else if x = 1 ∧ y = 2 then 2 else 0)
      [0, 1, 2] (by decide) (by decide) (by decide)⟩

/-- C8 (witness): with a double-bond marker anchored at 0 and a
triple-bond marker anchored at 5, the stage writes order 2 at (0, 1)
and order 3 at (5, 6). -/
theorem c8_bond_markers_witness :
    bondOrderApply ['=', '#'] [0, 5] (fun _ _ => 0) 0 1 = 2 ∧
      bondOrderApply ['=', '#'] [0, 5] (fun _ _ => 0) 5 6 = 3 ∧
      (parseSmiles "C=C").bond 0 1 = 2 ∧ (parseSmiles "C#C").bond 0 1 = 3 := by
  have h := c8_bond_markers ['=', '#'] [0, 5] (fun _ _ => 0) 0 5
    (by decide) (by decide) (by decide)
  exact ⟨h.1, h.2.1, h.2.2.1, h.2.2.2⟩

end Gimlet
